import Mathlib

/-!
Verification of the chess rules engine and search engine
(`src/engine/ChessEngine.ts`, `src/engine/MoveValidator.ts`, `AIEngine`).

Shallow embedding conventions:
* A board is a total function from positions to optional pieces.  The
  TypeScript board is an 8 by 8 array; every raw array access the engine
  performs is at an in-range index, so the function model coincides with
  the array on all reachable reads.  `cloneBoard` is the identity on pure
  values and is therefore not modelled explicitly.
* JavaScript numbers holding board coordinates and score arithmetic stay
  inside the integers (and the infinities), so coordinates are `Int` and
  search scores are an extended-integer type `EInt`.
* The single `throw` in `ChessEngine.makeMove` is modelled with
  `Except String`; the search engine propagates it monadically exactly as
  an exception would propagate.
-/

namespace Chess

inductive Color where
  | white
  | black
deriving DecidableEq, Repr

def opponent : Color → Color
  | .white => .black
  | .black => .white

inductive PieceType where
  | king
  | queen
  | rook
  | bishop
  | knight
  | pawn
deriving DecidableEq, Repr

structure Piece where
  type : PieceType
  color : Color
  hasMoved : Bool
deriving DecidableEq, Repr

structure Pos where
  row : Int
  col : Int
deriving DecidableEq, Repr

abbrev Board := Pos → Option Piece

/-- Point update of a board (models one JavaScript array-cell assignment). -/
def setBoard (b : Board) (p : Pos) (v : Option Piece) : Board :=
  fun q => if q = p then v else b q

/-- `ChessEngine.isPositionValid`. -/
def isPositionValid (p : Pos) : Bool :=
  decide (0 ≤ p.row) && decide (p.row < 8) && decide (0 ≤ p.col) && decide (p.col < 8)

/-- `ChessEngine.getPieceAt`: `null` for out-of-range positions. -/
def getPieceAt (b : Board) (p : Pos) : Option Piece :=
  if isPositionValid p then b p else none

/-- `ChessEngine.isSquareEmpty`. -/
def isSquareEmpty (b : Board) (p : Pos) : Bool :=
  (getPieceAt b p).isNone

/-- `ChessEngine.isOpponentPiece`. -/
def isOpponentPiece (b : Board) (p : Pos) (c : Color) : Bool :=
  match getPieceAt b p with
  | some piece => piece.color != c
  | none => false

/-- `ChessEngine.isOwnPiece`. -/
def isOwnPiece (b : Board) (p : Pos) (c : Color) : Bool :=
  match getPieceAt b p with
  | some piece => piece.color == c
  | none => false

/-- The 64 squares in the row-major order of the `for row / for col` scans. -/
def allSquares : List Pos :=
  (List.range 8).flatMap (fun r => (List.range 8).map (fun c => ⟨Int.ofNat r, Int.ofNat c⟩))

/-- Does an optional square content hold the king of side `c`? -/
def isKingOf (c : Color) : Option Piece → Bool
  | some piece => piece.type == .king && piece.color == c
  | none => false

/-- `ChessEngine.findKingPosition`: first matching square in row-major order. -/
def findKingPosition (b : Board) (c : Color) : Option Pos :=
  allSquares.find? (fun p => isKingOf c (b p))

/-- `ChessEngine.getAllPiecesPositions`: row-major scan collecting `c`-colored squares. -/
def getAllPiecesPositions (b : Board) (c : Color) : List Pos :=
  allSquares.filter (fun p =>
    match b p with
    | some piece => piece.color == c
    | none => false)

/-- Pawn forward direction (`-1` for white, `+1` for black), from `MoveValidator.validatePawnMove`. -/
def direction (c : Color) : Int :=
  match c with
  | .white => -1
  | .black => 1

/-- Pawn start row (`6` for white, `1` for black), from `MoveValidator.validatePawnMove`. -/
def startRow (c : Color) : Int :=
  match c with
  | .white => 6
  | .black => 1

/-- `MoveValidator.validatePawnMove`. -/
def validatePawnMove (b : Board) (fromPos toPos : Pos) (piece : Piece) : Bool :=
  let dir := direction piece.color
  let sRow := startRow piece.color
  let rowDiff := toPos.row - fromPos.row
  let colDiff := (toPos.col - fromPos.col).natAbs
  if rowDiff == dir && colDiff == 0 then
    isSquareEmpty b toPos
  else if rowDiff == 2 * dir && colDiff == 0 && fromPos.row == sRow then
    isSquareEmpty b ⟨fromPos.row + dir, fromPos.col⟩ && isSquareEmpty b toPos
  else if rowDiff == dir && colDiff == 1 then
    isOpponentPiece b toPos piece.color
  else
    false

/-- `MoveValidator.validateKnightMove`. -/
def validateKnightMove (fromPos toPos : Pos) : Bool :=
  let rowDiff := (toPos.row - fromPos.row).natAbs
  let colDiff := (toPos.col - fromPos.col).natAbs
  (rowDiff == 2 && colDiff == 1) || (rowDiff == 1 && colDiff == 2)

/-- `MoveValidator.isPathClear`: the source walks square by square from the
square after `fromPos` up to (excluding) `toPos`; on the aligned inputs the
per-piece validators supply, that loop visits exactly the `steps - 1`
intermediate squares enumerated here. -/
def isPathClear (b : Board) (fromPos toPos : Pos) : Bool :=
  let rowDiff := toPos.row - fromPos.row
  let colDiff := toPos.col - fromPos.col
  let rowStep := Int.sign rowDiff
  let colStep := Int.sign colDiff
  let steps := Nat.max rowDiff.natAbs colDiff.natAbs
  (List.range (steps - 1)).all (fun k =>
    isSquareEmpty b ⟨fromPos.row + rowStep * ((k : Int) + 1), fromPos.col + colStep * ((k : Int) + 1)⟩)

/-- `MoveValidator.validateBishopMove`. -/
def validateBishopMove (b : Board) (fromPos toPos : Pos) : Bool :=
  let rowDiff := (toPos.row - fromPos.row).natAbs
  let colDiff := (toPos.col - fromPos.col).natAbs
  if rowDiff != colDiff || rowDiff == 0 then false
  else isPathClear b fromPos toPos

/-- `MoveValidator.validateRookMove`. -/
def validateRookMove (b : Board) (fromPos toPos : Pos) : Bool :=
  let rowDiff := (toPos.row - fromPos.row).natAbs
  let colDiff := (toPos.col - fromPos.col).natAbs
  if (rowDiff == 0 && colDiff == 0) || (rowDiff != 0 && colDiff != 0) then false
  else isPathClear b fromPos toPos

/-- `MoveValidator.validateQueenMove`. -/
def validateQueenMove (b : Board) (fromPos toPos : Pos) : Bool :=
  validateRookMove b fromPos toPos || validateBishopMove b fromPos toPos

/-- `MoveValidator.validateKingMove`. -/
def validateKingMove (fromPos toPos : Pos) : Bool :=
  let rowDiff := (toPos.row - fromPos.row).natAbs
  let colDiff := (toPos.col - fromPos.col).natAbs
  decide (rowDiff ≤ 1) && decide (colDiff ≤ 1) && (rowDiff != 0 || colDiff != 0)

/-- `MoveValidator.isValidBasicMove`. -/
def isValidBasicMove (b : Board) (fromPos toPos : Pos) : Bool :=
  if !(isPositionValid fromPos && isPositionValid toPos) then false
  else
    match getPieceAt b fromPos with
    | none => false
    | some piece =>
      if isOwnPiece b toPos piece.color then false
      else
        match piece.type with
        | .pawn => validatePawnMove b fromPos toPos piece
        | .knight => validateKnightMove fromPos toPos
        | .bishop => validateBishopMove b fromPos toPos
        | .rook => validateRookMove b fromPos toPos
        | .queen => validateQueenMove b fromPos toPos
        | .king => validateKingMove fromPos toPos

/-- `ChessEngine.isInCheck`. -/
def isInCheck (b : Board) (c : Color) : Bool :=
  match findKingPosition b c with
  | none => false
  | some kingPos =>
    (getAllPiecesPositions b (opponent c)).any (fun p => isValidBasicMove b p kingPos)

/-- `ChessEngine.wouldBeInCheckAfterMove`: clone, move the piece raw, test check. -/
def wouldBeInCheckAfterMove (b : Board) (fromPos toPos : Pos) (c : Color) : Bool :=
  match b fromPos with
  | none => false
  | some piece => isInCheck (setBoard (setBoard b toPos (some piece)) fromPos none) c

/-- The type-level move record (`Move` in `types`); optional flags become
`Bool` with `false` for "absent" (JavaScript `undefined` is falsy). -/
structure Move where
  fromPos : Pos
  toPos : Pos
  piece : Piece
  capturedPiece : Option Piece
  isEnPassant : Bool
  isCastling : Bool
  promotionType : Option PieceType
deriving DecidableEq, Repr

/-- `ChessEngine.canEnPassant`. -/
def canEnPassant (b : Board) (fromPos toPos : Pos) (lastMove : Option Move) : Bool :=
  match lastMove with
  | none => false
  | some lm =>
    match getPieceAt b fromPos with
    | none => false
    | some piece =>
      if piece.type != .pawn then false
      else if lm.piece.type != .pawn then false
      else if (lm.toPos.row - lm.fromPos.row).natAbs != 2 then false
      else if lm.toPos.row != fromPos.row then false
      else if (lm.toPos.col - fromPos.col).natAbs != 1 then false
      else toPos.row == fromPos.row + direction piece.color && toPos.col == lm.toPos.col

inductive CastleSide where
  | kingside
  | queenside
deriving DecidableEq, Repr

/-- The back rank of a side (`7` for white, `0` for black). -/
def homeRow (c : Color) : Int :=
  match c with
  | .white => 7
  | .black => 0

/-- The columns strictly between columns `a` and `b`
(the `for (col = min+1; col < max; col++)` loop in `canCastle`). -/
def betweenCols (a b : Int) : List Int :=
  let lo := Min.min a b
  let hi := Max.max a b
  (List.range (hi - lo - 1).toNat).map (fun i => lo + 1 + Int.ofNat i)

/-- The hypothetical board of `canCastle`: the piece on `(row, 4)` is moved
to `(row, col)` (write `col` first, then clear the king square, exactly as
the source mutates its clone). -/
def castleTestBoard (b : Board) (row col : Int) : Board :=
  setBoard (setBoard b ⟨row, col⟩ (b ⟨row, 4⟩)) ⟨row, 4⟩ none

/-- The two early-return guards of `canCastle` on the king and rook
squares: a piece is present, of the given kind and side, and unmoved. -/
def pieceIs (v : Option Piece) (t : PieceType) (c : Color) : Bool :=
  match v with
  | some k => k.type == t && k.color == c && !k.hasMoved
  | none => false

/-- `ChessEngine.canCastle`. -/
def canCastle (b : Board) (c : Color) (side : CastleSide) : Bool :=
  let row := homeRow c
  let kingCol : Int := 4
  let rookCol : Int := match side with | .kingside => 7 | .queenside => 0
  let kingOk := pieceIs (b ⟨row, kingCol⟩) .king c
  let rookOk := pieceIs (b ⟨row, rookCol⟩) .rook c
  let betweenOk := (betweenCols kingCol rookCol).all (fun col => (b ⟨row, col⟩).isNone)
  let dir : Int := match side with | .kingside => 1 | .queenside => -1
  let passOk := ([kingCol + dir, kingCol + 2 * dir] : List Int).all (fun col =>
    !isInCheck (castleTestBoard b row col) c)
  kingOk && rookOk && betweenOk && !isInCheck b c && passOk

/-- `ChessEngine.getCastlingMoves`: kingside destination first. -/
def getCastlingMoves (b : Board) (c : Color) : List Pos :=
  let row := homeRow c
  (if canCastle b c .kingside then [⟨row, 6⟩] else []) ++
    (if canCastle b c .queenside then [⟨row, 2⟩] else [])

/-- `ChessEngine.getEnPassantMoves`: left offset before right offset. -/
def getEnPassantMoves (b : Board) (pawnPos : Pos) (c : Color) (lm : Move) : List Pos :=
  let dir := direction c
  ([-1, 1] : List Int).filterMap (fun colOffset =>
    let targetCol := pawnPos.col + colOffset
    if decide (targetCol < 0) || decide (8 ≤ targetCol) then none
    else
      let targetPos : Pos := ⟨pawnPos.row + dir, targetCol⟩
      if canEnPassant b pawnPos targetPos (some lm) then some targetPos else none)

/-- `ChessEngine.getPossibleMoves`: the 64-square scan, then castling
destinations for a king, then en-passant destinations for a pawn with a
last move. -/
def getPossibleMoves (b : Board) (fromPos : Pos) (lastMove : Option Move) : List Pos :=
  match getPieceAt b fromPos with
  | none => []
  | some piece =>
    let base := allSquares.filter (fun toPos => isValidBasicMove b fromPos toPos)
    let withCastle := if piece.type == .king then base ++ getCastlingMoves b piece.color else base
    match piece.type, lastMove with
    | .pawn, some lm => withCastle ++ getEnPassantMoves b fromPos piece.color lm
    | _, _ => withCastle

/-- `ChessEngine.getValidMoves`. -/
def getValidMoves (b : Board) (position : Pos) (lastMove : Option Move) : List Pos :=
  match getPieceAt b position with
  | none => []
  | some piece =>
    (getPossibleMoves b position lastMove).filter
      (fun targetPos => !wouldBeInCheckAfterMove b position targetPos piece.color)

/-- `ChessEngine.hasAnyValidMove` (note: called without a last move). -/
def hasAnyValidMove (b : Board) (c : Color) : Bool :=
  (getAllPiecesPositions b c).any (fun p => !(getValidMoves b p none).isEmpty)

/-- `ChessEngine.isCheckmate`. -/
def isCheckmate (b : Board) (c : Color) : Bool :=
  if !isInCheck b c then false
  else !hasAnyValidMove b c

/-- `ChessEngine.isStalemate`. -/
def isStalemate (b : Board) (c : Color) : Bool :=
  if isInCheck b c then false
  else !hasAnyValidMove b c

/-- `MoveResult` of `types`. -/
structure MoveResult where
  newBoard : Board
  move : Move
  isCheck : Bool
  isCheckmate : Bool
  isStalemate : Bool

/-- `ChessEngine.executeCastling`, as a board transform mirroring the four
array writes in source order.  The source dereferences the king and rook
with non-null assertions; here a missing piece simply writes `none`
(the branch is only reached with the king present). -/
def executeCastling (b : Board) (fromPos toPos : Pos) (c : Color) : Board :=
  let row := homeRow c
  let isKingside := decide (fromPos.col < toPos.col)
  let b1 := setBoard b toPos ((b fromPos).map (fun k => { k with hasMoved := true }))
  let b2 := setBoard b1 fromPos none
  let rookFromCol : Int := if isKingside then 7 else 0
  let rookToCol : Int := if isKingside then 5 else 3
  let rook := b2 ⟨row, rookFromCol⟩
  let b3 := setBoard b2 ⟨row, rookToCol⟩ (rook.map (fun r => { r with hasMoved := true }))
  setBoard b3 ⟨row, rookFromCol⟩ none

/-- The tail of `ChessEngine.makeMove`: status fields computed on the board
produced by the chosen branch, against the opponent of the mover. -/
def finishMove (newBoard : Board) (move : Move) (piece : Piece) : MoveResult :=
  let opponentColor := opponent piece.color
  let isCheckF := isInCheck newBoard opponentColor
  let isCheckmateF := isCheckF && isCheckmate newBoard opponentColor
  let isStalemateF := !isCheckF && isStalemate newBoard opponentColor
  ⟨newBoard, move, isCheckF, isCheckmateF, isStalemateF⟩

/-- `ChessEngine.makeMove`.  The only `throw` in the engine becomes the
`Except.error` case; each success is total. -/
def makeMove (b : Board) (fromPos toPos : Pos) (lastMove : Option Move)
    (promotionType : Option PieceType) : Except String MoveResult :=
  match b fromPos with
  | none => .error "No piece at source position"
  | some piece =>
    let capturedPiece := b toPos
    let move0 : Move := ⟨fromPos, toPos, piece, capturedPiece, false, false, none⟩
    if piece.type == .king && (toPos.col - fromPos.col).natAbs == 2 then
      let newBoard := executeCastling b fromPos toPos piece.color
      .ok (finishMove newBoard { move0 with isCastling := true } piece)
    else if piece.type == .pawn && canEnPassant b fromPos toPos lastMove then
      let capturedPawnPos : Pos := ⟨fromPos.row, toPos.col⟩
      let captured := b capturedPawnPos
      let newBoard :=
        setBoard (setBoard (setBoard b toPos (some { piece with hasMoved := true }))
          fromPos none) capturedPawnPos none
      .ok (finishMove newBoard { move0 with isEnPassant := true, capturedPiece := captured } piece)
    else
      let promotionRow : Int := if piece.color == .white then 0 else 7
      let promotes := piece.type == .pawn && toPos.row == promotionRow
      let finalPromotionType := promotionType.getD .queen
      let movedPiece : Piece :=
        if promotes then { piece with hasMoved := true, type := finalPromotionType }
        else { piece with hasMoved := true }
      let move1 := if promotes then { move0 with promotionType := some finalPromotionType }
        else move0
      let newBoard := setBoard (setBoard b toPos (some movedPiece)) fromPos none
      .ok (finishMove newBoard move1 piece)

/-! ## AIEngine

Scores are JavaScript numbers that only ever take integer values or the two
infinities, so they are modelled by an extended-integer type `EInt` with the
IEEE comparison behaviour on those values (`-Infinity < -Infinity` is false,
and so on). -/

inductive EInt where
  | negInf
  | fin (val : Int)
  | posInf
deriving DecidableEq, Repr

/-- JavaScript `<` restricted to the values the search produces. -/
def EInt.lt : EInt → EInt → Bool
  | _, .negInf => false
  | .negInf, _ => true
  | .posInf, _ => false
  | .fin a, .fin b => decide (a < b)
  | .fin _, .posInf => true

/-- JavaScript `<=` restricted to the values the search produces. -/
def EInt.le : EInt → EInt → Bool
  | .negInf, _ => true
  | _, .posInf => true
  | .fin a, .fin b => decide (a ≤ b)
  | _, _ => false

/-- `Math.max` on scores. -/
def EInt.max (a b : EInt) : EInt :=
  if EInt.lt a b then b else a

/-- `Math.min` on scores. -/
def EInt.min (a b : EInt) : EInt :=
  if EInt.lt b a then b else a

/-- `AIEngine.PIECE_VALUES`. -/
def pieceValue : PieceType → Int
  | .pawn => 100
  | .knight => 320
  | .bishop => 330
  | .rook => 500
  | .queen => 900
  | .king => 20000

/-- `AIEngine.PAWN_POSITION_VALUES`. -/
def pawnPositionValues : List (List Int) :=
  [[0, 0, 0, 0, 0, 0, 0, 0],
   [50, 50, 50, 50, 50, 50, 50, 50],
   [10, 10, 20, 30, 30, 20, 10, 10],
   [5, 5, 10, 25, 25, 10, 5, 5],
   [0, 0, 0, 20, 20, 0, 0, 0],
   [5, -5, -10, 0, 0, -10, -5, 5],
   [5, 10, 10, -20, -20, 10, 10, 5],
   [0, 0, 0, 0, 0, 0, 0, 0]]

/-- `AIEngine.KNIGHT_POSITION_VALUES`. -/
def knightPositionValues : List (List Int) :=
  [[-50, -40, -30, -30, -30, -30, -40, -50],
   [-40, -20, 0, 0, 0, 0, -20, -40],
   [-30, 0, 10, 15, 15, 10, 0, -30],
   [-30, 5, 15, 20, 20, 15, 5, -30],
   [-30, 0, 15, 20, 20, 15, 0, -30],
   [-30, 5, 10, 15, 15, 10, 5, -30],
   [-40, -20, 0, 5, 5, 0, -20, -40],
   [-50, -40, -30, -30, -30, -30, -40, -50]]

/-- `AIEngine.BISHOP_POSITION_VALUES`. -/
def bishopPositionValues : List (List Int) :=
  [[-20, -10, -10, -10, -10, -10, -10, -20],
   [-10, 0, 0, 0, 0, 0, 0, -10],
   [-10, 0, 5, 10, 10, 5, 0, -10],
   [-10, 5, 5, 10, 10, 5, 5, -10],
   [-10, 0, 10, 10, 10, 10, 0, -10],
   [-10, 10, 10, 10, 10, 10, 10, -10],
   [-10, 5, 0, 0, 0, 0, 5, -10],
   [-20, -10, -10, -10, -10, -10, -10, -20]]

/-- `AIEngine.KING_POSITION_VALUES`. -/
def kingPositionValues : List (List Int) :=
  [[-30, -40, -40, -50, -50, -40, -40, -30],
   [-30, -40, -40, -50, -50, -40, -40, -30],
   [-30, -40, -40, -50, -50, -40, -40, -30],
   [-30, -40, -40, -50, -50, -40, -40, -30],
   [-20, -30, -30, -40, -40, -30, -30, -20],
   [-10, -20, -20, -20, -20, -20, -20, -10],
   [20, 20, 0, 0, 0, 0, 20, 20],
   [20, 30, 10, 0, 0, 10, 30, 20]]

/-- Table indexing `TABLE[row][col]` (always called with in-range indices). -/
def tableLookup (t : List (List Int)) (row col : Int) : Int :=
  (t.getD row.toNat []).getD col.toNat 0

/-- `AIEngine.getPositionValue`. -/
def getPositionValue (piece : Piece) (row col : Int) : Int :=
  let adjustedRow := if piece.color == .white then row else 7 - row
  match piece.type with
  | .pawn => tableLookup pawnPositionValues adjustedRow col
  | .knight => tableLookup knightPositionValues adjustedRow col
  | .bishop => tableLookup bishopPositionValues adjustedRow col
  | .king => tableLookup kingPositionValues adjustedRow col
  | .rook => 0
  | .queen => 0

/-- `AIEngine.evaluateBoard`: material plus positional value, signed towards
`aiColor`. -/
def evaluateBoard (b : Board) (aiColor : Color) : Int :=
  allSquares.foldl
    (fun score p =>
      match b p with
      | none => score
      | some piece =>
        let totalValue := pieceValue piece.type + getPositionValue piece p.row p.col
        if piece.color == aiColor then score + totalValue else score - totalValue)
    0

/-- `AIEngine.getAllPossibleMoves`: pieces in row-major order, each piece's
legal destinations in `getValidMoves` order. -/
def getAllPossibleMoves (b : Board) (c : Color) : List Move :=
  (getAllPiecesPositions b c).flatMap (fun position =>
    (getValidMoves b position none).filterMap (fun targetPos =>
      match getPieceAt b position with
      | some piece => some ⟨position, targetPos, piece, none, false, false, none⟩
      | none => none))

/-- The type of the recursive call the `for` loops of `AIEngine.minimax`
make: `this.minimax(board, depth - 1, alpha, beta, isMaximizing, aiColor)`
with `depth - 1` already fixed. -/
abbrev MinimaxRec := Board → EInt → EInt → Bool → Color → Except String EInt

/-- The maximizing `for` loop of `AIEngine.minimax`; `rec` is the recursive
call at the decremented depth, and the `break` on `beta <= alpha` becomes an
early return. -/
def maxLoop (rec : MinimaxRec) (b : Board) (aiColor : Color) :
    List Move → EInt → EInt → EInt → Except String EInt
  | [], maxValue, _, _ => .ok maxValue
  | m :: ms, maxValue, alpha, beta =>
    match makeMove b m.fromPos m.toPos none none with
    | .error e => .error e
    | .ok moveResult =>
      match rec moveResult.newBoard alpha beta false aiColor with
      | .error e => .error e
      | .ok value =>
        let maxValue := EInt.max maxValue value
        let alpha := EInt.max alpha value
        if EInt.le beta alpha then .ok maxValue
        else maxLoop rec b aiColor ms maxValue alpha beta

/-- The minimizing `for` loop of `AIEngine.minimax`. -/
def minLoop (rec : MinimaxRec) (b : Board) (aiColor : Color) :
    List Move → EInt → EInt → EInt → Except String EInt
  | [], minValue, _, _ => .ok minValue
  | m :: ms, minValue, alpha, beta =>
    match makeMove b m.fromPos m.toPos none none with
    | .error e => .error e
    | .ok moveResult =>
      match rec moveResult.newBoard alpha beta true aiColor with
      | .error e => .error e
      | .ok value =>
        let minValue := EInt.min minValue value
        let beta := EInt.min beta value
        if EInt.le beta alpha then .ok minValue
        else minLoop rec b aiColor ms minValue alpha beta

/-- `AIEngine.minimax`.  `depth` is the remaining search depth. -/
def minimax (b : Board) (depth : Nat) (alpha beta : EInt) (isMaximizing : Bool)
    (aiColor : Color) : Except String EInt :=
  match depth with
  | 0 => .ok (.fin (evaluateBoard b aiColor))
  | d + 1 =>
    let currentColor := if isMaximizing then aiColor else opponent aiColor
    if isCheckmate b currentColor then
      .ok (if isMaximizing then .negInf else .posInf)
    else if isStalemate b currentColor then
      .ok (.fin 0)
    else
      let allMoves := getAllPossibleMoves b currentColor
      if allMoves.isEmpty then .ok (.fin (evaluateBoard b aiColor))
      else if isMaximizing then
        maxLoop (fun b2 a2 b3 mx ai => minimax b2 d a2 b3 mx ai) b aiColor allMoves .negInf alpha beta
      else
        minLoop (fun b2 a2 b3 mx ai => minimax b2 d a2 b3 mx ai) b aiColor allMoves .posInf alpha beta

/-- The move-selection `for` loop of `AIEngine.calculateBestMove`
(`alpha` and `beta` are the constants `-Infinity` and `Infinity` there). -/
def bestLoop (b : Board) (c : Color) (d : Nat) (moves : List Move)
    (bestMove : Option Move) (bestValue : EInt) : Except String (Option Move) :=
  match moves with
  | [] => .ok bestMove
  | m :: ms =>
    match makeMove b m.fromPos m.toPos none none with
    | .error e => .error e
    | .ok moveResult =>
      match minimax moveResult.newBoard d .negInf .posInf false c with
      | .error e => .error e
      | .ok value =>
        if EInt.lt bestValue value then bestLoop b c d ms (some m) value
        else bestLoop b c d ms bestMove bestValue

/-- `AIEngine.calculateBestMove`.  The claims only concern `depth ≥ 1`
(the source would recurse forever below `depth = 1`; `Nat` subtraction makes
the model total there, but no theorem relies on that case). -/
def calculateBestMove (b : Board) (c : Color) (depth : Nat) : Except String (Option Move) :=
  let allMoves := getAllPossibleMoves b c
  if allMoves.isEmpty then .ok none
  else bestLoop b c (depth - 1) allMoves none .negInf

/-! ## Specification-side definitions

These follow the wording of the specification and of the claims; the
theorems below compare them with the source-derived definitions above. -/

/-- A square is under attack by the enemies of side `c` when some enemy
piece has a structurally-legal move (the raw validator, ignoring
self-check) onto it. -/
def squareAttacked (b : Board) (c : Color) (p : Pos) : Bool :=
  (getAllPiecesPositions b (opponent c)).any (fun q => isValidBasicMove b q p)

/-- Rook home column for a castling wing. -/
def castleRookCol : CastleSide → Int
  | .kingside => 7
  | .queenside => 0

/-- The squares the castling king passes through (destination included,
origin excluded), in the order the source visits them. -/
def kingPassCols : CastleSide → List Int
  | .kingside => [5, 6]
  | .queenside => [3, 2]

/-- The castling precondition exactly as the claim states it: king and rook
on their home squares, unmoved and of the right kind and side; the squares
strictly between them empty; the king's current square not under attack;
and every square the king passes through not under attack on the
hypothetical board with the king moved there. -/
def CastleSpec (b : Board) (c : Color) (side : CastleSide) : Prop :=
  b ⟨homeRow c, 4⟩ = some ⟨.king, c, false⟩ ∧
  b ⟨homeRow c, castleRookCol side⟩ = some ⟨.rook, c, false⟩ ∧
  (∀ col : Int, Min.min 4 (castleRookCol side) < col → col < Max.max 4 (castleRookCol side) →
    b ⟨homeRow c, col⟩ = none) ∧
  squareAttacked b c ⟨homeRow c, 4⟩ = false ∧
  (∀ col ∈ kingPassCols side, squareAttacked (castleTestBoard b (homeRow c) col) c
    ⟨homeRow c, col⟩ = false)

/-- The minimax score `calculateBestMove` assigns to a candidate move
(the two error fallbacks are never reached for generated moves, see
`minimax_ok` and `mem_getAllPossibleMoves_isSome`). -/
def moveScore (b : Board) (c : Color) (d : Nat) (m : Move) : EInt :=
  match makeMove b m.fromPos m.toPos none none with
  | .error _ => .negInf
  | .ok r =>
    match minimax r.newBoard d .negInf .posInf false c with
    | .error _ => .negInf
    | .ok v => v

/-- Running maximum of the scores of a move list, seeded with `bv`. -/
def maxScore (f : Move → EInt) (ms : List Move) (bv : EInt) : EInt :=
  ms.foldl (fun acc m => EInt.max acc (f m)) bv

/-- The pure content of the selection loop in `calculateBestMove`: keep the
first move whose score strictly improves on the running best. -/
def argmaxLoop (f : Move → EInt) : List Move → Option Move → EInt → Option Move
  | [], best, _ => best
  | m :: ms, best, bv =>
    if EInt.lt bv (f m) then argmaxLoop f ms (some m) (f m)
    else argmaxLoop f ms best bv

/-- The move `calculateBestMove` ought to return, per the (amended) claim:
none when no move scores above `-Infinity`, otherwise the first move in
enumeration order whose score equals the maximum over all legal moves. -/
def bestMoveSpec (b : Board) (c : Color) (depth : Nat) : Option Move :=
  let moves := getAllPossibleMoves b c
  let f := moveScore b c (depth - 1)
  let best := maxScore f moves .negInf
  if best = .negInf then none
  else moves.find? (fun m => f m == best)

/-- Row-major scan index of a square. -/
def scanIdx (p : Pos) : Int :=
  p.row * 8 + p.col

/-! ## Concrete boards used by counterexamples and witnesses -/

/-- Black king a8, white rook h7, white king b6: black's only legal move is
Kb8, after which white mates at once, so at depth 3 every black move scores
`-Infinity`. -/
def boardForcedLoss : Board := fun p =>
  if p = ⟨0, 0⟩ then some ⟨.king, .black, false⟩
  else if p = ⟨1, 7⟩ then some ⟨.rook, .white, false⟩
  else if p = ⟨2, 1⟩ then some ⟨.king, .white, false⟩
  else none

/-- The mate that search finds from `boardForcedLoss`: black king b8,
white rook h8, white king b6 — black is checkmated. -/
def boardBackRankMate : Board := fun p =>
  if p = ⟨0, 1⟩ then some ⟨.king, .black, true⟩
  else if p = ⟨0, 7⟩ then some ⟨.rook, .white, true⟩
  else if p = ⟨2, 1⟩ then some ⟨.king, .white, false⟩
  else none

/-- A lone white pawn on its home square whose `hasMoved` flag is set. -/
def boardMovedFlagPawn : Board := fun p =>
  if p = ⟨6, 4⟩ then some ⟨.pawn, .white, true⟩
  else none

/-- A board with two white kings: one on a8 and attacked by the black rook
on h8, the other on the castling home square e1 with its rook on h1. -/
def boardTwoKings : Board := fun p =>
  if p = ⟨0, 0⟩ then some ⟨.king, .white, false⟩
  else if p = ⟨0, 7⟩ then some ⟨.rook, .black, false⟩
  else if p = ⟨7, 4⟩ then some ⟨.king, .white, false⟩
  else if p = ⟨7, 7⟩ then some ⟨.rook, .white, false⟩
  else none

/-- A white pawn on e7 beside a black pawn on f7 (which a fabricated
"two-row" last move claims just arrived there). -/
def boardEnPassantPromo : Board := fun p =>
  if p = ⟨1, 4⟩ then some ⟨.pawn, .white, true⟩
  else if p = ⟨1, 5⟩ then some ⟨.pawn, .black, true⟩
  else none

/-- The fabricated last move enabling the en-passant branch on
`boardEnPassantPromo`: a black pawn recorded as moving two rows up to f7. -/
def lastMoveEnPassantPromo : Move :=
  ⟨⟨3, 5⟩, ⟨1, 5⟩, ⟨.pawn, .black, true⟩, none, false, false, none⟩

/-- A lone white pawn one step off its home square, with `hasMoved` set. -/
def boardOffHomePawn : Board := fun p =>
  if p = ⟨5, 4⟩ then some ⟨.pawn, .white, true⟩
  else none

/-- White pawn on e7, nothing else: one step from promotion. -/
def boardPromoReady : Board := fun p =>
  if p = ⟨1, 4⟩ then some ⟨.pawn, .white, true⟩
  else none

/-- A correctly castled-shaped position: white king e1, white rook h1,
black king e8 (no interference anywhere). -/
def boardCastleReady : Board := fun p =>
  if p = ⟨0, 4⟩ then some ⟨.king, .black, false⟩
  else if p = ⟨7, 4⟩ then some ⟨.king, .white, false⟩
  else if p = ⟨7, 7⟩ then some ⟨.rook, .white, false⟩
  else none

/-- The empty board. -/
def emptyBoard : Board := fun _ => none

/-- A lone white rook (no kings): white always has a move, so search at
depth 1 picks the first move attaining the maximal score. -/
def boardLoneRook : Board := fun p =>
  if p = ⟨4, 4⟩ then some ⟨.rook, .white, true⟩
  else none

/-! ## General lemmas about the board scans -/

theorem mem_allSquares {p : Pos} : p ∈ allSquares ↔ isPositionValid p = true := by
  constructor
  · intro h
    simp only [allSquares, List.mem_flatMap, List.mem_map, List.mem_range] at h
    obtain ⟨r, hr, c, hc, rfl⟩ := h
    simp only [isPositionValid, Bool.and_eq_true, decide_eq_true_eq, Int.ofNat_eq_natCast]
    omega
  · intro h
    cases p with
    | mk r c =>
      simp only [isPositionValid, Bool.and_eq_true, decide_eq_true_eq] at h
      simp only [allSquares, List.mem_flatMap, List.mem_map, List.mem_range]
      refine ⟨r.toNat, by omega, c.toNat, by omega, ?_⟩
      simp only [Pos.mk.injEq, Int.ofNat_eq_natCast]
      omega

theorem mem_getAllPiecesPositions {b : Board} {c : Color} {p : Pos} :
    p ∈ getAllPiecesPositions b c ↔
      isPositionValid p = true ∧ ∃ piece, b p = some piece ∧ piece.color = c := by
  simp only [getAllPiecesPositions, List.mem_filter, mem_allSquares]
  refine and_congr Iff.rfl ?_
  cases h : b p with
  | none => simp
  | some piece => simp [h]

theorem allSquares_sorted : allSquares.Pairwise (fun p q => scanIdx p < scanIdx q) := by
  decide

/-- `find?` returns `a` when `a` satisfies the predicate and everything with
a smaller measure does not, on a list sorted by the measure. -/
theorem find?_first_sorted {α : Type} (f : α → Int) (P : α → Bool) :
    ∀ (l : List α), l.Pairwise (fun x y => f x < f y) →
      ∀ a ∈ l, P a = true → (∀ x ∈ l, f x < f a → P x = false) → l.find? P = some a := by
  intro l
  induction l with
  | nil => intro _ a ha; exact absurd ha (List.not_mem_nil a)
  | cons hd tl ih =>
    intro hpw a ha hPa hearlier
    rcases List.mem_cons.mp ha with rfl | hmem
    · exact List.find?_cons_of_pos _ hPa
    · have hlt : f hd < f a := (List.pairwise_cons.mp hpw).1 a hmem
      have hhd : P hd = false := hearlier hd (List.mem_cons_self hd tl) hlt
      rw [List.find?_cons_of_neg _ (by simp [hhd])]
      exact ih (List.pairwise_cons.mp hpw).2 a hmem hPa
        (fun x hx hfx => hearlier x (List.mem_cons_of_mem hd hx) hfx)

/-- On a list sorted by the measure, everything before the element `find?`
returned fails the predicate. -/
theorem find?_earlier_sorted {α : Type} (f : α → Int) (P : α → Bool) :
    ∀ (l : List α), l.Pairwise (fun x y => f x < f y) →
      ∀ a, l.find? P = some a → ∀ x ∈ l, f x < f a → P x = false := by
  intro l
  induction l with
  | nil => intro _ a ha; simp at ha
  | cons hd tl ih =>
    intro hpw a hfind x hx hfx
    cases hPhd : P hd with
    | true =>
      rw [List.find?_cons_of_pos _ hPhd] at hfind
      obtain rfl : hd = a := by injection hfind
      rcases List.mem_cons.mp hx with rfl | hmem
      · exact absurd hfx (lt_irrefl _)
      · exact absurd hfx (not_lt_of_gt ((List.pairwise_cons.mp hpw).1 x hmem))
    | false =>
      rw [List.find?_cons_of_neg _ (by simp [hPhd])] at hfind
      rcases List.mem_cons.mp hx with rfl | hmem
      · exact hPhd
      · exact ih (List.pairwise_cons.mp hpw).2 a hfind x hmem hfx

/-! ## Order lemmas for the extended scores -/

theorem EInt.lt_self_false (a : EInt) : EInt.lt a a = false := by
  cases a <;> simp [EInt.lt]

theorem EInt.lt_asymm {a b : EInt} (h : EInt.lt a b = true) : EInt.lt b a = false := by
  cases a <;> cases b <;> simp [EInt.lt] at * <;> omega

theorem EInt.not_lt_trans {a b c : EInt} (h1 : EInt.lt a b = false) (h2 : EInt.lt b c = false) :
    EInt.lt a c = false := by
  cases a <;> cases b <;> cases c <;> simp [EInt.lt] at * <;> omega

theorem EInt.not_lt_antisymm {a b : EInt} (h1 : EInt.lt a b = false) (h2 : EInt.lt b a = false) :
    a = b := by
  cases a <;> cases b <;> simp [EInt.lt] at * <;> omega

theorem EInt.lt_of_not_lt_of_lt {a b c : EInt} (h1 : EInt.lt a b = false)
    (h2 : EInt.lt a c = true) : EInt.lt b c = true := by
  cases a <;> cases b <;> cases c <;> simp [EInt.lt] at * <;> omega

theorem EInt.beq_false_of_lt {a b : EInt} (h : EInt.lt a b = true) : (a == b) = false := by
  cases a <;> cases b <;> simp [EInt.lt] at * <;> omega

theorem EInt.lt_max_left_false (a b : EInt) : EInt.lt (EInt.max a b) a = false := by
  unfold EInt.max
  cases h : EInt.lt a b with
  | true => simpa using EInt.lt_asymm h
  | false => simpa using EInt.lt_self_false a

theorem EInt.lt_max_right_false (a b : EInt) : EInt.lt (EInt.max a b) b = false := by
  unfold EInt.max
  cases h : EInt.lt a b with
  | true => simpa using EInt.lt_self_false b
  | false => simpa using h

theorem EInt.negInf_lt_of_ne {a : EInt} (h : a ≠ EInt.negInf) : EInt.lt EInt.negInf a = true := by
  cases a <;> simp [EInt.lt] at * <;> simp_all

theorem EInt.eq_negInf_of_not_negInf_lt {a : EInt} (h : EInt.lt EInt.negInf a = false) :
    a = EInt.negInf := by
  cases a <;> simp [EInt.lt] at * <;> simp_all

/-! ## C10: the static evaluation is antisymmetric in the root side -/

/-- C10: for every board, `evaluateBoard b white = -(evaluateBoard b black)`:
each piece's material-plus-positional contribution does not depend on the
root side, which only sets the sign. -/
theorem evaluateBoard_white_neg_black (b : Board) :
    evaluateBoard b .white = -evaluateBoard b .black := by
  have key : ∀ (l : List Pos) (a : Int),
      List.foldl
        (fun score p =>
          match b p with
          | none => score
          | some piece =>
            if piece.color == Color.white
            then score + (pieceValue piece.type + getPositionValue piece p.row p.col)
            else score - (pieceValue piece.type + getPositionValue piece p.row p.col))
        a l
      =
      -(List.foldl
        (fun score p =>
          match b p with
          | none => score
          | some piece =>
            if piece.color == Color.black
            then score + (pieceValue piece.type + getPositionValue piece p.row p.col)
            else score - (pieceValue piece.type + getPositionValue piece p.row p.col))
        (-a) l) := by
    intro l
    induction l with
    | nil => intro a; simp
    | cons p l ih =>
      intro a
      simp only [List.foldl_cons]
      cases hb : b p with
      | none => simpa only [hb] using ih a
      | some piece =>
        simp only [hb]
        rw [ih]
        have hacc :
            -(if piece.color == Color.white
              then a + (pieceValue piece.type + getPositionValue piece p.row p.col)
              else a - (pieceValue piece.type + getPositionValue piece p.row p.col))
            = (if piece.color == Color.black
              then -a + (pieceValue piece.type + getPositionValue piece p.row p.col)
              else -a - (pieceValue piece.type + getPositionValue piece p.row p.col)) := by
          cases hc : piece.color <;> simp [hc] <;> ring
        rw [hacc]
  simpa [evaluateBoard] using key allSquares 0

/-! ## C2: `makeMove` raises exactly when the source square is empty -/

/-- C2: for an in-range source square (positions carry the data-model
invariant that both coordinates are in range), `makeMove` returns the
contract-violation error exactly when the source square is empty, and
otherwise fully succeeds with a move outcome — there is no partial
application of a move. -/
theorem makeMove_error_iff (b : Board) (fromPos toPos : Pos) (lm : Option Move)
    (promo : Option PieceType) (hval : isPositionValid fromPos = true) :
    ((makeMove b fromPos toPos lm promo = .error "No piece at source position") ↔
      isSquareEmpty b fromPos = true) ∧
    ((∃ r, makeMove b fromPos toPos lm promo = .ok r) ↔ isSquareEmpty b fromPos = false) := by
  have hsq : isSquareEmpty b fromPos = (b fromPos).isNone := by
    simp [isSquareEmpty, getPieceAt, hval]
  cases hb : b fromPos with
  | none =>
    rw [hsq, hb]
    constructor
    · simp [makeMove, hb]
    · simp [makeMove, hb]
  | some piece =>
    rw [hsq, hb]
    constructor
    · simp only [Option.isNone_some]
      constructor
      · intro h
        exfalso
        revert h
        simp only [makeMove, hb]
        split
        · simp
        · split <;> simp
      · intro h; cases h
    · simp only [Option.isNone_some]
      constructor
      · intro _; trivial
      · intro _
        simp only [makeMove, hb]
        split
        · exact ⟨_, rfl⟩
        · split
          · exact ⟨_, rfl⟩
          · exact ⟨_, rfl⟩

/-- Witness for C2 at a concrete input: the empty board with source a1. -/
theorem makeMove_error_iff_witness :
    ((makeMove emptyBoard ⟨0, 0⟩ ⟨1, 1⟩ none none = .error "No piece at source position") ↔
      isSquareEmpty emptyBoard ⟨0, 0⟩ = true) ∧
    ((∃ r, makeMove emptyBoard ⟨0, 0⟩ ⟨1, 1⟩ none none = .ok r) ↔
      isSquareEmpty emptyBoard ⟨0, 0⟩ = false) :=
  makeMove_error_iff emptyBoard ⟨0, 0⟩ ⟨1, 1⟩ none none (by decide)

/-! ## C3: what actually gates the pawn double step -/

/-- C3 counterexample: a pawn on its home rank whose `hasMoved` flag is set
may still double-step — `validatePawnMove` checks the home rank, not the
flag, so the claim "`hasMoved = true` implies the double step is rejected"
is false on this input (the validator returns `true`, not `false`). -/
theorem validatePawnMove_hasMoved_counterexample :
    boardMovedFlagPawn ⟨6, 4⟩ = some ⟨.pawn, .white, true⟩ ∧
    (⟨.pawn, .white, true⟩ : Piece).hasMoved = true ∧
    validatePawnMove boardMovedFlagPawn ⟨6, 4⟩ ⟨4, 4⟩ ⟨.pawn, .white, true⟩ = true := by
  refine ⟨by decide, by decide, by decide⟩

/-- C3 amended: the double step is gated by the home rank, not by the
`hasMoved` flag: from any square off the pawn's home rank (in particular
from any square a pawn can actually have moved to), `validatePawnMove`
rejects the two-square forward step. -/
theorem validatePawnMove_two_step_off_home (b : Board) (fromPos : Pos) (piece : Piece)
    (h : fromPos.row ≠ startRow piece.color) :
    validatePawnMove b fromPos
      ⟨fromPos.row + 2 * direction piece.color, fromPos.col⟩ piece = false := by
  cases hc : piece.color <;>
    (simp only [validatePawnMove, direction, startRow, hc] at h ⊢
     split_ifs with h1 h2 h3 <;>
       first
         | rfl
         | (exfalso
            simp only [Bool.and_eq_true, beq_iff_eq, Int.natAbs_eq_zero,
              Int.natAbs_eq_iff] at *
            omega))

/-- Witness for the amended C3: a moved white pawn one square up the board. -/
theorem validatePawnMove_two_step_off_home_witness :
    validatePawnMove boardOffHomePawn ⟨5, 4⟩ ⟨3, 4⟩ ⟨.pawn, .white, true⟩ = false := by
  have h := validatePawnMove_two_step_off_home boardOffHomePawn ⟨5, 4⟩
    ⟨.pawn, .white, true⟩ (by decide)
  exact h

/-! ## C4: `isInCheck` characterisation -/

/-- C4: `isInCheck` is `false` (without raising — the model is total) when
the side has no king on the board, and otherwise it is `true` exactly when
some enemy piece has a structurally-legal move (raw validator, self-check
ignored) onto the king's square. -/
theorem isInCheck_char (b : Board) (c : Color) :
    (findKingPosition b c = none → isInCheck b c = false) ∧
    (∀ kp, findKingPosition b c = some kp →
      (isInCheck b c = true ↔
        ∃ p ∈ getAllPiecesPositions b (opponent c), isValidBasicMove b p kp = true)) := by
  constructor
  · intro h; simp [isInCheck, h]
  · intro kp h
    simp [isInCheck, h, List.any_eq_true]

/-- Witness for C4 on a kingless board. -/
theorem isInCheck_char_witness : isInCheck emptyBoard .white = false :=
  (isInCheck_char emptyBoard .white).1 (by decide)

/-! ## C5: checkmate and stalemate -/

/-- C5: checkmate and stalemate are mutually exclusive; checkmate holds
exactly when the side is in check and no piece of that side has a legal
move, stalemate exactly when the side is not in check and no piece has a
legal move. -/
theorem checkmate_stalemate_char (b : Board) (c : Color) :
    ((isCheckmate b c && isStalemate b c) = false) ∧
    (isCheckmate b c = true ↔
      isInCheck b c = true ∧ ∀ p ∈ getAllPiecesPositions b c, getValidMoves b p none = []) ∧
    (isStalemate b c = true ↔
      isInCheck b c = false ∧ ∀ p ∈ getAllPiecesPositions b c, getValidMoves b p none = []) := by
  have hchar : (hasAnyValidMove b c = false) ↔
      (∀ p ∈ getAllPiecesPositions b c, getValidMoves b p none = []) := by
    rw [hasAnyValidMove, List.any_eq_false]
    constructor
    · intro h p hp
      simpa [List.isEmpty_iff] using h p hp
    · intro h p hp
      simp [List.isEmpty_iff, h p hp]
  refine ⟨?_, ?_, ?_⟩
  · cases h : isInCheck b c <;> simp [isCheckmate, isStalemate, h]
  · cases h : isInCheck b c <;> cases hm : hasAnyValidMove b c <;>
      simp [isCheckmate, h, hm, ← hchar]
  · cases h : isInCheck b c <;> cases hm : hasAnyValidMove b c <;>
      simp [isStalemate, h, hm, ← hchar]

/-- Witness for C5 on a concrete mated position. -/
theorem checkmate_stalemate_char_witness :
    (isCheckmate boardBackRankMate .black && isStalemate boardBackRankMate .black) = false :=
  (checkmate_stalemate_char boardBackRankMate .black).1

/-! ## C6: the status fields of a move outcome -/

theorem isCheckmate_false_of_not_check {b : Board} {c : Color} (h : isInCheck b c = false) :
    isCheckmate b c = false := by
  simp [isCheckmate, h]

theorem isStalemate_false_of_check {b : Board} {c : Color} (h : isInCheck b c = true) :
    isStalemate b c = false := by
  simp [isStalemate, h]

theorem isInCheck_false_of_stalemate {b : Board} {c : Color} (h : isStalemate b c = true) :
    isInCheck b c = false := by
  by_contra hx
  rw [Bool.not_eq_false] at hx
  simp [isStalemate, hx] at h

theorem finishMove_fields (nb : Board) (mv : Move) (pc : Piece) :
    (finishMove nb mv pc).newBoard = nb ∧
    (finishMove nb mv pc).isCheck = isInCheck nb (opponent pc.color) ∧
    (finishMove nb mv pc).isCheckmate = isCheckmate nb (opponent pc.color) ∧
    (finishMove nb mv pc).isStalemate = isStalemate nb (opponent pc.color) := by
  refine ⟨rfl, rfl, ?_, ?_⟩
  · show (isInCheck nb (opponent pc.color) && isCheckmate nb (opponent pc.color)) = _
    cases h : isInCheck nb (opponent pc.color)
    · simp [isCheckmate, h]
    · simp
  · show (!isInCheck nb (opponent pc.color) && isStalemate nb (opponent pc.color)) = _
    cases h : isInCheck nb (opponent pc.color)
    · simp
    · simp [isStalemate_false_of_check h]

/-- C6: with a piece at the source, `makeMove` succeeds and its `isCheck`,
`isCheckmate` and `isStalemate` fields are computed against the opponent of
the mover on the returned board; in particular `isCheck` agrees with an
independent `isInCheck` call on the returned board. -/
theorem makeMove_status_opponent (b : Board) (fromPos toPos : Pos) (lm : Option Move)
    (promo : Option PieceType) (piece : Piece) (hb : b fromPos = some piece) :
    ∃ r, makeMove b fromPos toPos lm promo = .ok r ∧
      r.isCheck = isInCheck r.newBoard (opponent piece.color) ∧
      r.isCheckmate = isCheckmate r.newBoard (opponent piece.color) ∧
      r.isStalemate = isStalemate r.newBoard (opponent piece.color) := by
  simp only [makeMove, hb]
  split
  · refine ⟨_, rfl, ?_, ?_, ?_⟩
    · rw [(finishMove_fields _ _ _).1]; exact (finishMove_fields _ _ _).2.1
    · rw [(finishMove_fields _ _ _).1]; exact (finishMove_fields _ _ _).2.2.1
    · rw [(finishMove_fields _ _ _).1]; exact (finishMove_fields _ _ _).2.2.2
  · split
    · refine ⟨_, rfl, ?_, ?_, ?_⟩
      · rw [(finishMove_fields _ _ _).1]; exact (finishMove_fields _ _ _).2.1
      · rw [(finishMove_fields _ _ _).1]; exact (finishMove_fields _ _ _).2.2.1
      · rw [(finishMove_fields _ _ _).1]; exact (finishMove_fields _ _ _).2.2.2
    · refine ⟨_, rfl, ?_, ?_, ?_⟩
      · rw [(finishMove_fields _ _ _).1]; exact (finishMove_fields _ _ _).2.1
      · rw [(finishMove_fields _ _ _).1]; exact (finishMove_fields _ _ _).2.2.1
      · rw [(finishMove_fields _ _ _).1]; exact (finishMove_fields _ _ _).2.2.2

/-- Witness for C6: the black king steps from a8 to b8. -/
theorem makeMove_status_opponent_witness :
    ∃ r, makeMove boardForcedLoss ⟨0, 0⟩ ⟨0, 1⟩ none none = .ok r ∧
      r.isCheck = isInCheck r.newBoard (opponent (⟨.king, .black, false⟩ : Piece).color) ∧
      r.isCheckmate = isCheckmate r.newBoard (opponent (⟨.king, .black, false⟩ : Piece).color) ∧
      r.isStalemate = isStalemate r.newBoard (opponent (⟨.king, .black, false⟩ : Piece).color) :=
  makeMove_status_opponent boardForcedLoss ⟨0, 0⟩ ⟨0, 1⟩ none none
    ⟨.king, .black, false⟩ (by decide)

/-! ## C8: the terminal cases of `minimax` -/

/-- C8: at remaining depth at least one, `minimax` returns the extreme
sentinel when the side to move at the node is checkmated (`-Infinity` when
that side is the maximizing side, `+Infinity` when minimizing), exactly
`0` when that side is stalemated, and falls back to the static evaluation
when the move list is empty although neither predicate reported. -/
theorem minimax_terminal_cases (b : Board) (d : Nat) (alpha beta : EInt)
    (isMax : Bool) (ai : Color) :
    (isCheckmate b (if isMax then ai else opponent ai) = true →
      minimax b (d + 1) alpha beta isMax ai = .ok (if isMax then .negInf else .posInf)) ∧
    (isStalemate b (if isMax then ai else opponent ai) = true →
      minimax b (d + 1) alpha beta isMax ai = .ok (.fin 0)) ∧
    (isCheckmate b (if isMax then ai else opponent ai) = false →
      isStalemate b (if isMax then ai else opponent ai) = false →
      getAllPossibleMoves b (if isMax then ai else opponent ai) = [] →
      minimax b (d + 1) alpha beta isMax ai = .ok (.fin (evaluateBoard b ai))) := by
  refine ⟨?_, ?_, ?_⟩
  · intro h
    simp [minimax, h]
  · intro h
    have hmate := isCheckmate_false_of_not_check (isInCheck_false_of_stalemate h)
    simp [minimax, hmate, h]
  · intro h1 h2 h3
    simp [minimax, h1, h2, h3]

/-- Witness for C8 on the concrete mated position (black is the maximizing
side and is checkmated, so the node scores `-Infinity`). -/
theorem minimax_terminal_cases_witness :
    minimax boardBackRankMate 1 .negInf .posInf true .black = .ok .negInf :=
  (minimax_terminal_cases boardBackRankMate 0 .negInf .posInf true .black).1 (by decide)

/-! ## C9: default promotion to queen -/

/-- C9 counterexample: a fabricated last move that satisfies
`canEnPassant` routes a pawn's arrival on the back rank through the
en-passant branch, which never promotes: the returned board holds a pawn
(not a queen) on the promotion square and the move record carries no
promotion, falsifying the claim as stated. -/
theorem makeMove_promotion_counterexample :
    (makeMove boardEnPassantPromo ⟨1, 4⟩ ⟨0, 5⟩ (some lastMoveEnPassantPromo) none).toOption.map
        (fun r => (r.newBoard ⟨0, 5⟩, r.move.promotionType))
      = some (some ⟨.pawn, .white, true⟩, none) := by
  decide

/-- C9 amended: when the move is not taken as an en-passant capture (for
example whenever no last move is supplied) and the destination differs from
the source, a pawn arriving on the opposite back rank with no explicit
promotion kind yields a queen of its side on the destination square and a
move record whose promotion field is queen. -/
theorem makeMove_promotion_no_ep (b : Board) (fromPos toPos : Pos) (lm : Option Move)
    (piece : Piece) (hb : b fromPos = some piece) (hpawn : piece.type = .pawn)
    (hrow : toPos.row = (if piece.color == .white then (0 : Int) else 7))
    (hep : canEnPassant b fromPos toPos lm = false)
    (hne : fromPos ≠ toPos) :
    ∃ r, makeMove b fromPos toPos lm none = .ok r ∧
      r.newBoard toPos = some ⟨.queen, piece.color, true⟩ ∧
      r.move.promotionType = some .queen := by
  have hking : (piece.type == PieceType.king) = false := by simp [hpawn]
  have hp : (piece.type == PieceType.pawn) = true := by simp [hpawn]
  have hpr : (toPos.row == (if piece.color == Color.white then (0 : Int) else 7)) = true := by
    simp [hrow]
  have h1 : ¬(toPos = fromPos) := fun hx => hne hx.symm
  simp only [makeMove, hb]
  rw [if_neg (by simp [hking]), if_neg (by simp [hp, hep])]
  have hrow2 : toPos.row = if piece.color = Color.white then (0 : Int) else 7 := by
    simpa using hrow
  refine ⟨_, rfl, ?_, ?_⟩
  · rw [(finishMove_fields _ _ _).1]
    simp [setBoard, h1, hp, hpr, hrow2]
  · show (if ((piece.type == PieceType.pawn) &&
          (toPos.row == if piece.color == Color.white then (0 : Int) else 7)) = true
        then _ else _ : Move).promotionType = _
    simp [hp, hpr, hrow2]

/-! ## C7: castling -/

theorem pieceIs_iff (v : Option Piece) (t : PieceType) (c : Color) :
    pieceIs v t c = true ↔ v = some ⟨t, c, false⟩ := by
  cases v with
  | none => simp [pieceIs]
  | some k => cases k with | mk kt kc km => simp [pieceIs, and_assoc]

theorem mem_betweenCols {a b col : Int} :
    col ∈ betweenCols a b ↔ Min.min a b < col ∧ col < Max.max a b := by
  simp only [betweenCols, List.mem_map, List.mem_range]
  rcases le_total a b with hab | hab
  · rw [min_eq_left hab, max_eq_right hab]
    constructor
    · rintro ⟨i, hi, rfl⟩
      simp only [Int.ofNat_eq_natCast]
      omega
    · intro ⟨h1, h2⟩
      refine ⟨(col - a - 1).toNat, by omega, ?_⟩
      simp only [Int.ofNat_eq_natCast]
      omega
  · rw [min_eq_right hab, max_eq_left hab]
    constructor
    · rintro ⟨i, hi, rfl⟩
      simp only [Int.ofNat_eq_natCast]
      omega
    · intro ⟨h1, h2⟩
      refine ⟨(col - b - 1).toNat, by omega, ?_⟩
      simp only [Int.ofNat_eq_natCast]
      omega

theorem isInCheck_eq_squareAttacked (b : Board) (c : Color) {kp : Pos}
    (h : findKingPosition b c = some kp) : isInCheck b c = squareAttacked b c kp := by
  simp [isInCheck, h, squareAttacked]

theorem homeRow_bounds (c : Color) : 0 ≤ homeRow c ∧ homeRow c < 8 := by
  cases c <;> simp [homeRow]

/-- Where `findKingPosition` looks on the hypothetical castling board: the
first king of side `c` in scan order is the one moved to `(homeRow c, col)`,
provided the original first king was on `(homeRow c, 4)` and the squares
scanned strictly between the two are empty. -/
theorem findKingPosition_castleTestBoard (b : Board) (c : Color) (col : Int)
    (hk : findKingPosition b c = some ⟨homeRow c, 4⟩)
    (hcol4 : col ≠ 4) (h0 : 0 ≤ col) (h8 : col < 8)
    (hbet : ∀ q : Pos, isPositionValid q = true → scanIdx ⟨homeRow c, 4⟩ < scanIdx q →
      scanIdx q < scanIdx ⟨homeRow c, col⟩ → b q = none) :
    findKingPosition (castleTestBoard b (homeRow c) col) c = some ⟨homeRow c, col⟩ := by
  have hrowb := homeRow_bounds c
  have hk' : List.find? (fun p => isKingOf c (b p)) allSquares = some ⟨homeRow c, 4⟩ := hk
  have hking : isKingOf c (b ⟨homeRow c, 4⟩) = true := by
    simpa using List.find?_some hk'
  have hearlier := find?_earlier_sorted scanIdx (fun p => isKingOf c (b p))
    allSquares allSquares_sorted _ hk'
  show List.find? (fun p => isKingOf c (castleTestBoard b (homeRow c) col p)) allSquares
    = some ⟨homeRow c, col⟩
  apply find?_first_sorted scanIdx _ allSquares allSquares_sorted
  · rw [mem_allSquares]
    simp only [isPositionValid, Bool.and_eq_true, decide_eq_true_eq]
    omega
  · have hval : castleTestBoard b (homeRow c) col ⟨homeRow c, col⟩ = b ⟨homeRow c, 4⟩ := by
      have hne : (⟨homeRow c, col⟩ : Pos) ≠ ⟨homeRow c, 4⟩ := by
        simp [Pos.mk.injEq, hcol4]
      simp [castleTestBoard, setBoard, hne]
    rw [hval]
    exact hking
  · intro q hq hlt
    by_cases hq4 : q = (⟨homeRow c, 4⟩ : Pos)
    · subst hq4
      simp [castleTestBoard, setBoard, isKingOf]
    · by_cases hqc : q = (⟨homeRow c, col⟩ : Pos)
      · subst hqc
        exact absurd hlt (lt_irrefl _)
      · have hval : castleTestBoard b (homeRow c) col q = b q := by
          simp [castleTestBoard, setBoard, hq4, hqc]
        rw [hval]
        have hvq : isPositionValid q = true := mem_allSquares.mp hq
        by_cases hlt4 : scanIdx q < scanIdx ⟨homeRow c, 4⟩
        · exact hearlier q hq hlt4
        · have h4lt : scanIdx ⟨homeRow c, 4⟩ < scanIdx q := by
            cases q with
            | mk qr qc =>
              simp only [isPositionValid, Bool.and_eq_true, decide_eq_true_eq] at hvq
              simp only [scanIdx] at hlt hlt4 ⊢
              have hne2 : ¬(qr = homeRow c ∧ qc = 4) := by
                intro ⟨e1, e2⟩
                exact hq4 (by simp [Pos.mk.injEq, e1, e2])
              omega
          have hnone : b q = none := hbet q hvq h4lt hlt
          simp [isKingOf, hnone]

/-- C7 amended: when the row-major king lookup finds the side's king on its
castling home square (in particular whenever the side has exactly one king,
there), `canCastle` is true exactly under the claim's conditions: king and
rook unmoved on their home squares, the squares strictly between them
empty, the king's square not under attack, and every square the king
passes through not under attack on the hypothetical board with the king
moved there. -/
theorem canCastle_iff (b : Board) (c : Color) (side : CastleSide)
    (hk : findKingPosition b c = some ⟨homeRow c, 4⟩) :
    canCastle b c side = true ↔ CastleSpec b c side := by
  have hibase := isInCheck_eq_squareAttacked b c hk
  have hpass : ∀ col : Int, 0 ≤ col → col < 8 → col ≠ 4 →
      (∀ q : Pos, isPositionValid q = true → scanIdx ⟨homeRow c, 4⟩ < scanIdx q →
        scanIdx q < scanIdx ⟨homeRow c, col⟩ → b q = none) →
      isInCheck (castleTestBoard b (homeRow c) col) c
        = squareAttacked (castleTestBoard b (homeRow c) col) c ⟨homeRow c, col⟩ := by
    intro col h0 h8 h4 hbet
    exact isInCheck_eq_squareAttacked _ _
      (findKingPosition_castleTestBoard b c col hk h4 h0 h8 hbet)
  have hvac : ∀ col : Int, col ≤ 5 →
      ∀ q : Pos, isPositionValid q = true → scanIdx ⟨homeRow c, 4⟩ < scanIdx q →
        scanIdx q < scanIdx ⟨homeRow c, col⟩ → b q = none := by
    intro col hc q hq h1 h2
    exfalso
    cases q with
    | mk qr qc =>
      simp only [scanIdx] at h1 h2
      omega
  cases side
  case kingside =>
    have hvac6of : (∀ col : Int, 4 < col → col < 7 → b ⟨homeRow c, col⟩ = none) →
        ∀ q : Pos, isPositionValid q = true → scanIdx ⟨homeRow c, 4⟩ < scanIdx q →
          scanIdx q < scanIdx ⟨homeRow c, 6⟩ → b q = none := by
      intro hbetween q hq h1 h2
      cases q with
      | mk qr qc =>
        simp only [isPositionValid, Bool.and_eq_true, decide_eq_true_eq] at hq
        simp only [scanIdx] at h1 h2
        have he : qr = homeRow c ∧ qc = 5 := by omega
        obtain ⟨e1, e2⟩ := he
        subst e1; subst e2
        exact hbetween 5 (by norm_num) (by norm_num)
    constructor
    · intro h
      simp only [canCastle, Bool.and_eq_true, Bool.not_eq_true', List.all_eq_true] at h
      obtain ⟨⟨⟨⟨hA, hB⟩, hC⟩, hD⟩, hE⟩ := h
      rw [pieceIs_iff] at hA hB
      have hbetween : ∀ col : Int, 4 < col → col < 7 → b ⟨homeRow c, col⟩ = none := by
        intro col h1 h2
        have hmem : col ∈ betweenCols 4 7 := by
          rw [mem_betweenCols]
          norm_num
          exact ⟨h1, h2⟩
        have := hC _ hmem
        simpa [Option.isNone_iff_eq_none] using this
      refine ⟨hA, hB, ?_, ?_, ?_⟩
      · intro col h1 h2
        apply hbetween col
        · simpa [castleRookCol] using h1
        · simpa [castleRookCol] using h2
      · rw [← hibase]; exact hD
      · intro col hcol
        simp only [kingPassCols, List.mem_cons, List.not_mem_nil, or_false] at hcol
        rcases hcol with rfl | rfl
        · rw [← hpass 5 (by norm_num) (by norm_num) (by norm_num) (hvac 5 (by norm_num))]
          have h5 := hE 5 (by norm_num)
          simpa using h5
        · rw [← hpass 6 (by norm_num) (by norm_num) (by norm_num) (hvac6of hbetween)]
          have h6 := hE 6 (by norm_num)
          simpa using h6
    · intro hs
      obtain ⟨hA, hB, hC, hD, hE⟩ := hs
      have hbetween : ∀ col : Int, 4 < col → col < 7 → b ⟨homeRow c, col⟩ = none := by
        intro col h1 h2
        apply hC col
        · simpa [castleRookCol] using h1
        · simpa [castleRookCol] using h2
      simp only [canCastle, Bool.and_eq_true, Bool.not_eq_true', List.all_eq_true]
      refine ⟨⟨⟨⟨?_, ?_⟩, ?_⟩, ?_⟩, ?_⟩
      · exact (pieceIs_iff _ _ _).mpr hA
      · exact (pieceIs_iff _ _ _).mpr hB
      · intro col hmem
        rw [mem_betweenCols] at hmem
        norm_num at hmem
        simpa [Option.isNone_iff_eq_none] using hbetween col hmem.1 hmem.2
      · rw [hibase]; exact hD
      · intro col hmem
        norm_num [List.mem_cons] at hmem
        rcases hmem with rfl | rfl
        · have := hE 5 (by simp [kingPassCols])
          rw [hpass 5 (by norm_num) (by norm_num) (by norm_num) (hvac 5 (by norm_num))]
          simpa using this
        · have := hE 6 (by simp [kingPassCols])
          rw [hpass 6 (by norm_num) (by norm_num) (by norm_num) (hvac6of hbetween)]
          simpa using this
  case queenside =>
    constructor
    · intro h
      simp only [canCastle, Bool.and_eq_true, Bool.not_eq_true', List.all_eq_true] at h
      obtain ⟨⟨⟨⟨hA, hB⟩, hC⟩, hD⟩, hE⟩ := h
      rw [pieceIs_iff] at hA hB
      have hbetween : ∀ col : Int, 0 < col → col < 4 → b ⟨homeRow c, col⟩ = none := by
        intro col h1 h2
        have hmem : col ∈ betweenCols 4 0 := by
          rw [mem_betweenCols]
          norm_num
          exact ⟨h1, h2⟩
        have := hC _ hmem
        simpa [Option.isNone_iff_eq_none] using this
      refine ⟨hA, hB, ?_, ?_, ?_⟩
      · intro col h1 h2
        apply hbetween col
        · simpa [castleRookCol] using h1
        · simpa [castleRookCol] using h2
      · rw [← hibase]; exact hD
      · intro col hcol
        simp only [kingPassCols, List.mem_cons, List.not_mem_nil, or_false] at hcol
        rcases hcol with rfl | rfl
        · rw [← hpass 3 (by norm_num) (by norm_num) (by norm_num) (hvac 3 (by norm_num))]
          have h3 := hE 3 (by norm_num)
          simpa using h3
        · rw [← hpass 2 (by norm_num) (by norm_num) (by norm_num) (hvac 2 (by norm_num))]
          have h2 := hE 2 (by norm_num)
          simpa using h2
    · intro hs
      obtain ⟨hA, hB, hC, hD, hE⟩ := hs
      simp only [canCastle, Bool.and_eq_true, Bool.not_eq_true', List.all_eq_true]
      refine ⟨⟨⟨⟨?_, ?_⟩, ?_⟩, ?_⟩, ?_⟩
      · exact (pieceIs_iff _ _ _).mpr hA
      · exact (pieceIs_iff _ _ _).mpr hB
      · intro col hmem
        rw [mem_betweenCols] at hmem
        norm_num at hmem
        refine Option.isNone_iff_eq_none.mpr (hC col ?_ ?_)
        · simpa [castleRookCol] using hmem.1
        · simpa [castleRookCol] using hmem.2
      · rw [hibase]; exact hD
      · intro col hmem
        norm_num [List.mem_cons] at hmem
        rcases hmem with rfl | rfl
        · have := hE 3 (by simp [kingPassCols])
          rw [hpass 3 (by norm_num) (by norm_num) (by norm_num) (hvac 3 (by norm_num))]
          simpa using this
        · have := hE 2 (by simp [kingPassCols])
          rw [hpass 2 (by norm_num) (by norm_num) (by norm_num) (hvac 2 (by norm_num))]
          simpa using this

/-- C7 counterexample: with two white kings on the board, `canCastle` tests
check against the first king found in row-major order (a8, attacked by the
black rook) rather than the castling king on e1, so it returns `false` even
though every condition of the claim — stated about the castling king and
its squares — holds. -/
theorem canCastle_counterexample :
    canCastle boardTwoKings .white .kingside = false ∧
    CastleSpec boardTwoKings .white .kingside := by
  refine ⟨by decide, by decide, by decide, ?_, by decide, ?_⟩
  · intro col h1 h2
    norm_num [castleRookCol] at h1 h2
    have hc : col = 5 ∨ col = 6 := by omega
    rcases hc with rfl | rfl <;> decide
  · intro col hcol
    simp only [kingPassCols, List.mem_cons, List.not_mem_nil, or_false] at hcol
    rcases hcol with rfl | rfl <;> decide

/-- Witness for the amended C7 on a clean castling position. -/
theorem canCastle_iff_witness :
    canCastle boardCastleReady .white .kingside = true ↔
      CastleSpec boardCastleReady .white .kingside :=
  canCastle_iff boardCastleReady .white .kingside (by decide)

/-- Witness for the amended C9: a white pawn promotes by default on e8. -/
theorem makeMove_promotion_no_ep_witness :
    ∃ r, makeMove boardPromoReady ⟨1, 4⟩ ⟨0, 4⟩ none none = .ok r ∧
      r.newBoard ⟨0, 4⟩ = some ⟨.queen, (⟨.pawn, .white, true⟩ : Piece).color, true⟩ ∧
      r.move.promotionType = some .queen :=
  makeMove_promotion_no_ep boardPromoReady ⟨1, 4⟩ ⟨0, 4⟩ none ⟨.pawn, .white, true⟩
    (by decide) rfl (by decide) (by decide) (by decide)

/-! ## C1: what `calculateBestMove` returns -/

theorem makeMove_isOk (b : Board) (fromPos toPos : Pos) (lm : Option Move)
    (promo : Option PieceType) (piece : Piece) (hb : b fromPos = some piece) :
    ∃ r, makeMove b fromPos toPos lm promo = .ok r := by
  simp only [makeMove, hb]
  split
  · exact ⟨_, rfl⟩
  · split
    · exact ⟨_, rfl⟩
    · exact ⟨_, rfl⟩

/-- Every move the search generates has a piece on its source square. -/
theorem mem_getAllPossibleMoves_from (b : Board) (c : Color) (m : Move)
    (hm : m ∈ getAllPossibleMoves b c) : ∃ piece, b m.fromPos = some piece := by
  simp only [getAllPossibleMoves, List.mem_flatMap] at hm
  obtain ⟨pos, hpos, hmem⟩ := hm
  obtain ⟨hval, piece, hbp, hcol⟩ := mem_getAllPiecesPositions.mp hpos
  simp only [List.mem_filterMap] at hmem
  obtain ⟨t, ht, hsome⟩ := hmem
  cases hgp : getPieceAt b pos with
  | none => rw [hgp] at hsome; simp at hsome
  | some pc =>
    rw [hgp] at hsome
    obtain rfl := Option.some.inj hsome
    exact ⟨piece, hbp⟩

theorem maxLoop_ok (rec : MinimaxRec) (b : Board) (ai : Color)
    (hrec : ∀ b2 a2 b3 mx, ∃ v, rec b2 a2 b3 mx ai = .ok v) :
    ∀ (ms : List Move) (mv alpha beta : EInt),
      (∀ m ∈ ms, ∃ piece, b m.fromPos = some piece) →
      ∃ v, maxLoop rec b ai ms mv alpha beta = .ok v := by
  intro ms
  induction ms with
  | nil => intro mv alpha beta _; exact ⟨mv, rfl⟩
  | cons m ms ih =>
    intro mv alpha beta hsrc
    obtain ⟨piece, hp⟩ := hsrc m (List.mem_cons_self m ms)
    obtain ⟨r, hr⟩ := makeMove_isOk b m.fromPos m.toPos none none piece hp
    obtain ⟨v, hv⟩ := hrec r.newBoard alpha beta false
    simp only [maxLoop, hr, hv]
    split
    · exact ⟨_, rfl⟩
    · exact ih _ _ _ (fun m' hm' => hsrc m' (List.mem_cons_of_mem m hm'))

theorem minLoop_ok (rec : MinimaxRec) (b : Board) (ai : Color)
    (hrec : ∀ b2 a2 b3 mx, ∃ v, rec b2 a2 b3 mx ai = .ok v) :
    ∀ (ms : List Move) (mv alpha beta : EInt),
      (∀ m ∈ ms, ∃ piece, b m.fromPos = some piece) →
      ∃ v, minLoop rec b ai ms mv alpha beta = .ok v := by
  intro ms
  induction ms with
  | nil => intro mv alpha beta _; exact ⟨mv, rfl⟩
  | cons m ms ih =>
    intro mv alpha beta hsrc
    obtain ⟨piece, hp⟩ := hsrc m (List.mem_cons_self m ms)
    obtain ⟨r, hr⟩ := makeMove_isOk b m.fromPos m.toPos none none piece hp
    obtain ⟨v, hv⟩ := hrec r.newBoard alpha beta true
    simp only [minLoop, hr, hv]
    split
    · exact ⟨_, rfl⟩
    · exact ih _ _ _ (fun m' hm' => hsrc m' (List.mem_cons_of_mem m hm'))

/-- The search engine never raises: `minimax` always returns a score. -/
theorem minimax_ok : ∀ (d : Nat) (b : Board) (alpha beta : EInt) (isMax : Bool) (ai : Color),
    ∃ v, minimax b d alpha beta isMax ai = .ok v := by
  intro d
  induction d with
  | zero => intro b alpha beta isMax ai; exact ⟨_, rfl⟩
  | succ d ih =>
    intro b alpha beta isMax ai
    simp only [minimax]
    repeat' split
    all_goals try exact ⟨_, rfl⟩
    all_goals
      first
        | exact maxLoop_ok _ b ai (fun b2 a2 b3 mx => ih b2 a2 b3 mx ai) _ _ _ _
            (fun m hm => mem_getAllPossibleMoves_from b _ m hm)
        | exact minLoop_ok _ b ai (fun b2 a2 b3 mx => ih b2 a2 b3 mx ai) _ _ _ _
            (fun m hm => mem_getAllPossibleMoves_from b _ m hm)

/-- The selection loop of `calculateBestMove` never raises and computes the
pure first-strict-improvement fold. -/
theorem bestLoop_eq (b : Board) (c : Color) (d : Nat) :
    ∀ (ms : List Move) (best : Option Move) (bv : EInt),
      (∀ m ∈ ms, ∃ piece, b m.fromPos = some piece) →
      bestLoop b c d ms best bv = .ok (argmaxLoop (moveScore b c d) ms best bv) := by
  intro ms
  induction ms with
  | nil => intro best bv _; rfl
  | cons m ms ih =>
    intro best bv hsrc
    obtain ⟨piece, hp⟩ := hsrc m (List.mem_cons_self m ms)
    obtain ⟨r, hr⟩ := makeMove_isOk b m.fromPos m.toPos none none piece hp
    obtain ⟨v, hv⟩ := minimax_ok d r.newBoard .negInf .posInf false c
    have hscore : moveScore b c d m = v := by
      simp [moveScore, hr, hv]
    simp only [bestLoop, hr, hv, argmaxLoop, hscore]
    split
    · exact ih _ _ (fun m' hm' => hsrc m' (List.mem_cons_of_mem m hm'))
    · exact ih _ _ (fun m' hm' => hsrc m' (List.mem_cons_of_mem m hm'))

theorem maxScore_cons (f : Move → EInt) (m : Move) (ms : List Move) (bv : EInt) :
    maxScore f (m :: ms) bv = maxScore f ms (EInt.max bv (f m)) := rfl

theorem not_lt_maxScore_init (f : Move → EInt) :
    ∀ (ms : List Move) (bv : EInt), EInt.lt (maxScore f ms bv) bv = false := by
  intro ms
  induction ms with
  | nil => intro bv; exact EInt.lt_self_false bv
  | cons m ms ih =>
    intro bv
    rw [maxScore_cons]
    exact EInt.not_lt_trans (ih (EInt.max bv (f m))) (EInt.lt_max_left_false bv (f m))

theorem not_lt_maxScore_mem (f : Move → EInt) :
    ∀ (ms : List Move) (bv : EInt) (m : Move), m ∈ ms →
      EInt.lt (maxScore f ms bv) (f m) = false := by
  intro ms
  induction ms with
  | nil => intro bv m hm; exact absurd hm (List.not_mem_nil m)
  | cons m0 ms ih =>
    intro bv m hm
    rcases List.mem_cons.mp hm with rfl | hmem
    · rw [maxScore_cons]
      exact EInt.not_lt_trans (not_lt_maxScore_init f ms (EInt.max bv (f m)))
        (EInt.lt_max_right_false bv (f m))
    · rw [maxScore_cons]
      exact ih _ m hmem

theorem argmaxLoop_no_improve (f : Move → EInt) :
    ∀ (ms : List Move) (best : Option Move) (bv : EInt),
      (∀ m ∈ ms, EInt.lt bv (f m) = false) →
      argmaxLoop f ms best bv = best := by
  intro ms
  induction ms with
  | nil => intro best bv _; rfl
  | cons m ms ih =>
    intro best bv h
    have h0 : EInt.lt bv (f m) = false := h m (List.mem_cons_self m ms)
    simp only [argmaxLoop, h0, Bool.false_eq_true, if_false]
    exact ih best bv (fun m' hm' => h m' (List.mem_cons_of_mem m hm'))

theorem argmaxLoop_finds (f : Move → EInt) :
    ∀ (ms : List Move) (best : Option Move) (bv : EInt),
      EInt.lt bv (maxScore f ms bv) = true →
      argmaxLoop f ms best bv = ms.find? (fun m => f m == maxScore f ms bv) := by
  intro ms
  induction ms with
  | nil =>
    intro best bv h
    rw [show maxScore f [] bv = bv from rfl, EInt.lt_self_false] at h
    cases h
  | cons m ms ih =>
    intro best bv h
    have hM : maxScore f (m :: ms) bv = maxScore f ms (EInt.max bv (f m)) := rfl
    cases hlt : EInt.lt bv (f m) with
    | true =>
      have hmax : EInt.max bv (f m) = f m := by simp [EInt.max, hlt]
      simp only [argmaxLoop, hlt, if_true]
      cases hfm : EInt.lt (f m) (maxScore f ms (f m)) with
      | false =>
        have heq : maxScore f ms (f m) = f m :=
          EInt.not_lt_antisymm (not_lt_maxScore_init f ms (f m)) hfm
        have hall : ∀ m' ∈ ms, EInt.lt (f m) (f m') = false := by
          intro m' hm'
          have hmm := not_lt_maxScore_mem f ms (f m) m' hm'
          rwa [heq] at hmm
        rw [argmaxLoop_no_improve f ms (some m) (f m) hall]
        rw [hM, hmax, heq]
        rw [List.find?_cons_of_pos _ (by simp)]
      | true =>
        have ihh := ih (some m) (f m) hfm
        rw [ihh, hM, hmax]
        rw [List.find?_cons_of_neg _ (by simp [EInt.beq_false_of_lt hfm])]
    | false =>
      have hmax : EInt.max bv (f m) = bv := by simp [EInt.max, hlt]
      rw [hM, hmax] at h
      have ihh := ih best bv h
      simp only [argmaxLoop, hlt, Bool.false_eq_true, if_false]
      rw [ihh, hM, hmax]
      have hfmM : EInt.lt (f m) (maxScore f ms bv) = true := EInt.lt_of_not_lt_of_lt hlt h
      rw [List.find?_cons_of_neg _ (by simp [EInt.beq_false_of_lt hfmM])]

/-- C1 counterexample: on `boardForcedLoss` black has a legal move, yet at
depth 3 `calculateBestMove` returns none, because every legal move scores
`-Infinity` (white mates at once after black's only move) and a score of
`-Infinity` never strictly improves the `-Infinity` starting best — the
claim's "none if and only if no legal moves" is false as stated. -/
theorem calculateBestMove_none_counterexample :
    (calculateBestMove boardForcedLoss .black 3).toOption = some none ∧
    getAllPossibleMoves boardForcedLoss .black ≠ [] := by
  constructor
  · decide
  · decide

/-- C1 amended: `calculateBestMove` never raises; it returns none when no
legal move exists and also when every legal move scores `-Infinity`; when
some legal move scores above `-Infinity` it returns the first move in
enumeration order whose minimax score equals the maximum over all legal
moves (`bestMoveSpec` states exactly this selection). -/
theorem calculateBestMove_eq_spec (b : Board) (c : Color) (depth : Nat)
    (hd : 1 ≤ depth) :
    calculateBestMove b c depth = .ok (bestMoveSpec b c depth) := by
  have hsrc : ∀ m ∈ getAllPossibleMoves b c, ∃ piece, b m.fromPos = some piece :=
    fun m hm => mem_getAllPossibleMoves_from b c m hm
  simp only [calculateBestMove, bestMoveSpec]
  cases hms : getAllPossibleMoves b c with
  | nil => simp [maxScore]
  | cons m ms =>
    rw [hms] at hsrc
    simp only [List.isEmpty_cons, Bool.false_eq_true, if_false]
    rw [bestLoop_eq b c (depth - 1) (m :: ms) none .negInf hsrc]
    congr 1
    by_cases hM : maxScore (moveScore b c (depth - 1)) (m :: ms) .negInf = .negInf
    · rw [if_pos hM]
      apply argmaxLoop_no_improve
      intro m' hm'
      have hub := not_lt_maxScore_mem (moveScore b c (depth - 1)) (m :: ms) .negInf m' hm'
      rw [hM] at hub
      rw [EInt.eq_negInf_of_not_negInf_lt hub]
      exact EInt.lt_self_false _
    · rw [if_neg hM]
      exact argmaxLoop_finds _ _ none _ (EInt.negInf_lt_of_ne hM)

/-- Witness for the amended C1 at depth 1 on a concrete board. -/
theorem calculateBestMove_eq_spec_witness :
    calculateBestMove boardLoneRook .white 1 = .ok (bestMoveSpec boardLoneRook .white 1) :=
  calculateBestMove_eq_spec boardLoneRook .white 1 (by decide)

end Chess
